import Mathlib

/-!
Shallow embedding of the baseline algorithms of `src/baseline_algorithms.py`
(classes `BaseBaselineALgorithm`, `AllBaseline`, `MaxEntAllBaseline`,
`RandomAllBaseline`, `FullSupervisionBaseline`) together with the parts of
their collaborators that the baselines read.  Machine floats are modelled by
exact numbers (`ℚ` for data, an ordered ring for classifier scores);
the IEEE special values produced by `np.log` on the boundary are modelled
separately by the `NpClass` value classification.
-/

namespace Seals

/-- Modelled from the spec: `LabeledSet` (its module `src/data_structures.py`
is not part of the excerpt): an ordered collection of three parallel
sequences — embeddings, `{0,1}` labels, and original indices into the full
embedding store — mutated only by appending new triples. -/
structure LabeledSet where
  X : List (List ℚ)
  y : List ℕ
  indices : List ℕ
  deriving Repr, DecidableEq

/-- Modelled from the spec: `LabeledSet.add_data` appends the given parallel
sequences of embeddings, labels and indices. -/
def LabeledSet.add_data (ls : LabeledSet) (X : List (List ℚ)) (y : List ℕ)
    (idx : List ℕ) : LabeledSet :=
  ⟨ls.X ++ X, ls.y ++ y, ls.indices ++ idx⟩

/-- `LabeledSet()`: the freshly constructed, empty labeled set. -/
def LabeledSet.emptySet : LabeledSet := ⟨[], [], []⟩

/-- The parts of the external `DataManager` that the baselines read:
`num_embeddings`, row access into `embedding_mm`, and the ground-truth map
`eval_class_indices` from class name to the list of true-positive indices. -/
structure DataManager where
  num_embeddings : ℕ
  embedding_mm : ℕ → List ℚ
  eval_class_indices : String → List ℕ

/-- The oracle label computed inside both `add_elements_to_set` loops:
`1 if idx in self.data_manager.eval_class_indices[eval_class] else 0`. -/
def oracleLabel (dm : DataManager) (c : String) (i : ℕ) : ℕ :=
  if i ∈ dm.eval_class_indices c then 1 else 0

/-- The per-row score computed in `MaxEntAllBaseline.add_elements_to_set`:
`prob[:, 1] * np.log(prob[:, 1]) + prob[:, 0] * np.log(prob[:, 0])`,
for one probability row `p = (p0, p1)`.  This is the negated binary entropy
when `p0 + p1 = 1`.  The logarithm is passed in so the same definition can be
read at `ℝ` with `Real.log` (the mathematical content) and instantiated at
computable score types for concrete evaluation. -/
def entropyScore {α : Type} [LinearOrderedCommRing α] (log : α → α) (p : α × α) : α :=
  p.2 * log p.2 + p.1 * log p.1

/-- `np.argsort(entropies)`: the list of positions of `es` ordered so that the
scores read off along it are ascending.  NumPy's default sort is not stable,
so its order among equal scores is implementation defined; a stable sort is
used as the representative deterministic choice (no claim depends on the
order within ties). -/
def argsort {α : Type} [LinearOrderedCommRing α] (es : List α) : List ℕ :=
  @List.insertionSort ℕ (fun i j => es.getD i 0 ≤ es.getD j 0)
    (fun i j => inferInstanceAs (Decidable (es.getD i 0 ≤ es.getD j 0)))
    (List.range es.length)

/-- The shared shape of the `while count < self.batch_size` loops of
`MaxEntAllBaseline.add_elements_to_set` and
`RandomAllBaseline.add_elements_to_set`: walk the given sequence of candidate
positions (`entropy_orders` for MaxEnt; the stream of `np.random.randint`
draws for Random); a candidate already in `labeled_set.indices` is skipped,
any other candidate is labeled by the oracle and appended, until `batch_size`
elements have been added.  Exhausting the sequence with the count still short
is `none`: for MaxEnt this is the `IndexError` of reading
`entropy_orders[index]` past the end of the array, for Random it means the
unbounded loop did not terminate within the modelled draw stream. -/
def selectLoop (dm : DataManager) (c : String) :
    List ℕ → ℕ → LabeledSet → Option LabeledSet
  | _, 0, ls => some ls
  | [], _ + 1, _ => none
  | i :: rest, b + 1, ls =>
    if i ∈ ls.indices then
      selectLoop dm c rest (b + 1) ls
    else
      selectLoop dm c rest b
        (ls.add_data [dm.embedding_mm i] [oracleLabel dm c i] [i])

/-- The entropy scores of all rows of the store, as computed in
`MaxEntAllBaseline.add_elements_to_set`: predict over
`np.array(self.data_manager.embedding_mm)` and score each probability row. -/
def MaxEntAllBaseline.entropies {α : Type} [LinearOrderedCommRing α] (log : α → α)
    (predict : List ℚ → α × α) (dm : DataManager) : List α :=
  (((List.range dm.num_embeddings).map dm.embedding_mm).map predict).map
    (entropyScore log)

/-- `MaxEntAllBaseline.add_elements_to_set`: rank all rows by
`np.argsort(entropies)` and run the selection loop along that ranking.
`predict` is the probability output of the (externally trained) classifier. -/
def MaxEntAllBaseline.add_elements_to_set {α : Type} [LinearOrderedCommRing α]
    (log : α → α) (predict : List ℚ → α × α) (dm : DataManager) (c : String)
    (batch_size : ℕ) (ls : LabeledSet) : Option LabeledSet :=
  selectLoop dm c (argsort (MaxEntAllBaseline.entropies log predict dm)) batch_size ls

/-- `RandomAllBaseline.add_elements_to_set`: run the selection loop along the
stream of `np.random.randint(0, num_embeddings)` draws produced by the global
NumPy random source (the draws are an explicit input here because the code
reads hidden global state). -/
def RandomAllBaseline.add_elements_to_set (dm : DataManager) (c : String)
    (draws : List ℕ) (batch_size : ℕ) (ls : LabeledSet) : Option LabeledSet :=
  selectLoop dm c draws batch_size ls

/-! ### Scores dictionaries and per-baseline state -/

/-- A Python `dict` from metric name to list of recorded values, in insertion
order. -/
abbrev Scores := List (String × List ℚ)

/-- `self.scores[k].append(v)`. -/
def appendScore (s : Scores) (k : String) (v : ℚ) : Scores :=
  s.map fun p => if p.1 = k then (p.1, p.2 ++ [v]) else p

/-- `self.scores[k] = v` (replaces the entry when the key is present,
otherwise inserts it at the end, as Python dict assignment does). -/
def setScore (s : Scores) (k : String) (v : List ℚ) : Scores :=
  if s.any (fun p => p.1 == k) then
    s.map fun p => if p.1 = k then (p.1, v) else p
  else
    s ++ [(k, v)]

/-- `self.scores[k]` (the empty list when the key is absent; all reads in the
source hit present keys). -/
def getScore (s : Scores) (k : String) : List ℚ :=
  match s.find? (fun p => p.1 == k) with
  | some p => p.2
  | none => []

/-- The scores dictionary built by `BaseBaselineALgorithm.__init__` and
re-installed by `finish_run`. -/
def baseInitScores : Scores :=
  [("precision", []), ("recall", []), ("average_precision", []), ("positives", [])]

/-- The scores dictionary built by `FullSupervisionBaseline.__init__`
(note: it has no `"positives"` entry). -/
def fullSupervisionInitScores : Scores :=
  [("precision", []), ("recall", []), ("average_precision", [])]

/-- The mutable per-instance state of a baseline that the claims are about:
the scores dictionary, the labeled set, the batch size and the `new_class`
flag. -/
structure BaselineState where
  scores : Scores
  labeled_set : LabeledSet
  batch_size : ℕ
  new_class : Bool
  deriving Repr, DecidableEq

/-- The state right after `BaseBaselineALgorithm.__init__` (as constructed;
also the state of a fresh `MaxEntAllBaseline` or `RandomAllBaseline`). -/
def baseInit : BaselineState :=
  ⟨baseInitScores, LabeledSet.emptySet, 100, true⟩

/-- The state right after `FullSupervisionBaseline.__init__`, which replaces
`self.scores` with the three-key dictionary. -/
def fullSupervisionInit : BaselineState :=
  ⟨fullSupervisionInitScores, LabeledSet.emptySet, 100, true⟩

/-- `BaseBaselineALgorithm.initialize_data`: copy the seed set into the
labeled set, store the batch size, set `new_class = True` (the data manager,
index, eval class and test data are modelled as explicit arguments to the
functions that read them). -/
def initData (initial : LabeledSet) (batch_size : ℕ) (st : BaselineState) :
    BaselineState :=
  { st with
    labeled_set :=
      st.labeled_set.add_data initial.X initial.y initial.indices,
    batch_size := batch_size,
    new_class := true }

/-- `BaseBaselineALgorithm.finish_run`: return the accumulated scores, then
re-install the four-key empty scores dictionary and a fresh `LabeledSet()`
(nothing else on the instance is touched). -/
def finish_run (st : BaselineState) : Scores × BaselineState :=
  (st.scores,
    { st with scores := baseInitScores, labeled_set := LabeledSet.emptySet })

/-- `AllBaseline.compute_scores`: append one value to each of the four lists.
Precision, recall and average precision come from sklearn evaluated on the
classifier trained on the current labeled set; they are abstracted as a
function `metrics` of the labeled set.  The positives entry is
`np.sum(self.labeled_set.y)`. -/
def compute_scores (metrics : LabeledSet → ℚ × ℚ × ℚ) (st : BaselineState) :
    BaselineState :=
  let s1 := appendScore st.scores "precision" (metrics st.labeled_set).1
  let s2 := appendScore s1 "recall" (metrics st.labeled_set).2.1
  let s3 := appendScore s2 "average_precision" (metrics st.labeled_set).2.2
  let s4 := appendScore s3 "positives" ((st.labeled_set.y.sum : ℚ))
  { st with scores := s4 }

/-- `AllBaseline.iteration`: train on the current labeled set (folded into
`metrics` and the `add_elements` closure), record scores, then add elements;
`none` propagates a failing `add_elements_to_set`. -/
def AllBaseline.iteration (metrics : LabeledSet → ℚ × ℚ × ℚ)
    (add_elements : ℕ → LabeledSet → Option LabeledSet) (st : BaselineState) :
    Option BaselineState :=
  let st1 := compute_scores metrics st
  (add_elements st1.batch_size st1.labeled_set).map
    fun ls => { st1 with labeled_set := ls }

/-- A run of consecutive `AllBaseline.iteration` calls, one per entry of the
list of per-round `add_elements_to_set` closures. -/
def AllBaseline.run (metrics : LabeledSet → ℚ × ℚ × ℚ) :
    List (ℕ → LabeledSet → Option LabeledSet) → BaselineState →
      Option BaselineState
  | [], st => some st
  | f :: fs, st =>
    (AllBaseline.iteration metrics f st).bind (AllBaseline.run metrics fs)

/-- The per-round add closure of `MaxEntAllBaseline` (the classifier is
trained on the current labeled set before predicting, hence `predict` takes
the labeled set first). -/
def MaxEntAllBaseline.addClosure {α : Type} [LinearOrderedCommRing α] (log : α → α)
    (predict : LabeledSet → List ℚ → α × α) (dm : DataManager) (c : String) :
    ℕ → LabeledSet → Option LabeledSet :=
  fun b ls => MaxEntAllBaseline.add_elements_to_set log (predict ls) dm c b ls

/-- `r` iterations of the MaxEnt-All baseline. -/
def MaxEntAllBaseline.runFor {α : Type} [LinearOrderedCommRing α] (log : α → α)
    (predict : LabeledSet → List ℚ → α × α)
    (metrics : LabeledSet → ℚ × ℚ × ℚ) (dm : DataManager) (c : String)
    (r : ℕ) (st : BaselineState) : Option BaselineState :=
  AllBaseline.run metrics
    (List.replicate r (MaxEntAllBaseline.addClosure log predict dm c)) st

/-- A run of the Random-All baseline, one draw stream per round. -/
def RandomAllBaseline.runWith (metrics : LabeledSet → ℚ × ℚ × ℚ)
    (dm : DataManager) (c : String) (draws : List (List ℕ))
    (st : BaselineState) : Option BaselineState :=
  AllBaseline.run metrics
    (draws.map fun d b ls => RandomAllBaseline.add_elements_to_set dm c d b ls) st

/-- `FullSupervisionBaseline.iteration`: when `new_class` is set, train the
classifier on the fully labeled store (a local variable, `self.labeled_set`
is untouched), record the one-shot scores and clear the flag; otherwise do
nothing.  `m` abstracts the sklearn metrics of that fully supervised
classifier on the test data. -/
def FullSupervisionBaseline.iteration (m : ℚ × ℚ × ℚ) (st : BaselineState) :
    BaselineState :=
  if st.new_class then
    let s1 := setScore st.scores "precision" (List.replicate 20 m.1)
    let s2 := setScore s1 "recall" (List.replicate 20 m.2.1)
    let s3 := setScore s2 "average_precision" (List.replicate 20 m.2.2)
    { st with scores := s3, new_class := false }
  else st

/-- `k` consecutive `FullSupervisionBaseline.iteration` calls. -/
def FullSupervisionBaseline.runFor (m : ℚ × ℚ × ℚ) :
    ℕ → BaselineState → BaselineState
  | 0, st => st
  | k + 1, st =>
    FullSupervisionBaseline.runFor m k (FullSupervisionBaseline.iteration m st)

/-! ### IEEE classification of the entropy computation

`MaxEntAllBaseline.add_elements_to_set` feeds the classifier probabilities to
`np.log` unguarded.  The finite/NaN/infinite classification of the resulting
float values is modelled exactly; the magnitude of finite values is
irrelevant to the claims about definedness. -/

/-- Classification of an IEEE double: NaN, `-inf`, `+inf`, or finite. -/
inductive NpClass
  | nan
  | neginf
  | posinf
  | finite
  deriving Repr, DecidableEq

/-- Class of `np.log x` for a finite `x`: NaN on negative input, `-inf` at
zero, finite otherwise. -/
def npLogClass (x : ℚ) : NpClass :=
  if x < 0 then .nan else if x = 0 then .neginf else .finite

/-- Class of `a * v` for a finite float `a` and a float `v` of class `c`
(IEEE: `0 * ±inf = NaN`). -/
def npMulClass (a : ℚ) (c : NpClass) : NpClass :=
  match c with
  | .nan => .nan
  | .finite => .finite
  | .neginf => if a = 0 then .nan else if 0 < a then .neginf else .posinf
  | .posinf => if a = 0 then .nan else if 0 < a then .posinf else .neginf

/-- Class of a sum of two floats of the given classes
(IEEE: `-inf + inf = NaN`). -/
def npAddClass : NpClass → NpClass → NpClass
  | .nan, _ => .nan
  | _, .nan => .nan
  | .neginf, .posinf => .nan
  | .posinf, .neginf => .nan
  | .neginf, _ => .neginf
  | _, .neginf => .neginf
  | .posinf, _ => .posinf
  | _, .posinf => .posinf
  | .finite, .finite => .finite

/-- Classification of one entry of the `entropies` array of
`MaxEntAllBaseline.add_elements_to_set`,
`prob[:, 1] * np.log(prob[:, 1]) + prob[:, 0] * np.log(prob[:, 0])`,
for a probability row `(p0, p1)`. -/
def entropyClass (p0 p1 : ℚ) : NpClass :=
  npAddClass (npMulClass p1 (npLogClass p1)) (npMulClass p0 (npLogClass p0))

/-- The number of eligible (distinct, not yet labeled) candidate positions in
a candidate sequence. -/
def eligibleCount (pool : List ℕ) (ls : LabeledSet) : ℕ :=
  (pool.toFinset \ ls.indices.toFinset).card

/-- The labels of a labeled set agree with the ground-truth oracle on their
paired indices. -/
def labelsMatchOracle (dm : DataManager) (c : String) (ls : LabeledSet) : Prop :=
  ∀ p ∈ ls.y.zip ls.indices, p.1 = oracleLabel dm c p.2

/-- Invariant of an `AllBaseline` state after `n` recorded rounds: the scores
dictionary holds the four metric lists of length `n`, the recorded positives
counts ascend, and none exceeds the positive count of the current labeled
set. -/
def scoresOk (st : BaselineState) (n : ℕ) : Prop :=
  ∃ l1 l2 l3 l4 : List ℚ,
    st.scores = [("precision", l1), ("recall", l2),
      ("average_precision", l3), ("positives", l4)] ∧
    l1.length = n ∧ l2.length = n ∧ l3.length = n ∧ l4.length = n ∧
    l4.Chain' (· ≤ ·) ∧
    ∀ x ∈ l4, x ≤ (st.labeled_set.y.sum : ℚ)

/-! ### Concrete test fixtures

Small concrete stores, classifiers and seed sets used to evaluate the
embedded operations on explicit inputs. -/

/-- A three-row store whose class of interest contains row 1. -/
def dmW : DataManager := ⟨3, fun i => [(i : ℚ)], fun _ => [1]⟩

/-- A one-row store whose class of interest contains row 0. -/
def dmW1 : DataManager := ⟨1, fun i => [(i : ℚ)], fun _ => [0]⟩

/-- A two-row store whose class of interest contains row 1. -/
def dmW2 : DataManager := ⟨2, fun i => [(i : ℚ)], fun _ => [1]⟩

/-- A concrete classifier probability output over integer scores (integer
scores keep every witness computation kernel-reducible). -/
def predW : List ℚ → ℤ × ℤ := fun e => ((e.headD 0).num, (e.headD 0).num)

/-- The same classifier, ignoring its training set. -/
def predLsW : LabeledSet → List ℚ → ℤ × ℤ := fun _ => predW

/-- Constant sklearn metrics. -/
def metricsW : LabeledSet → ℚ × ℚ × ℚ := fun _ => (1, 1, 1)

/-- A seed set holding the single labeled row 0 (a positive). -/
def seedW : LabeledSet := ⟨[[0]], [1], [0]⟩

/-- A labeled set in which the only row of `dmW1` is already labeled. -/
def lsW1 : LabeledSet := ⟨[[0]], [0], [0]⟩

/-! ### Properties of the selection loop -/

/-- A successful run of the selection loop appends a batch `sel` of fresh,
pairwise distinct candidate positions of the required length, in the order in
which the candidate sequence lists them, with the matching store rows and
oracle labels. -/
theorem selectLoop_spec (dm : DataManager) (c : String) :
    ∀ (orders : List ℕ) (b : ℕ) (ls ls' : LabeledSet),
      selectLoop dm c orders b ls = some ls' →
      ∃ sel : List ℕ,
        sel.length = b ∧
        ls'.X = ls.X ++ sel.map dm.embedding_mm ∧
        ls'.y = ls.y ++ sel.map (oracleLabel dm c) ∧
        ls'.indices = ls.indices ++ sel ∧
        sel.Sublist orders ∧
        (∀ i ∈ sel, i ∉ ls.indices) ∧ sel.Nodup := by
  intro orders
  induction orders with
  | nil =>
    intro b ls ls' h
    cases b with
    | zero =>
      simp only [selectLoop, Option.some.injEq] at h
      subst h
      exact ⟨[], by simp⟩
    | succ b => simp [selectLoop] at h
  | cons i rest ih =>
    intro b ls ls' h
    cases b with
    | zero =>
      simp only [selectLoop, Option.some.injEq] at h
      subst h
      exact ⟨[], by simp⟩
    | succ b =>
      simp only [selectLoop] at h
      by_cases hi : i ∈ ls.indices
      · rw [if_pos hi] at h
        obtain ⟨sel, hlen, hX, hy, hidx, hsub, hfresh, hnd⟩ := ih (b + 1) ls ls' h
        exact ⟨sel, hlen, hX, hy, hidx, hsub.cons i, hfresh, hnd⟩
      · rw [if_neg hi] at h
        obtain ⟨sel, hlen, hX, hy, hidx, hsub, hfresh, hnd⟩ := ih b _ ls' h
        have hfresh' : ∀ j ∈ sel, j ∉ ls.indices ++ [i] := hfresh
        refine ⟨i :: sel, by simp [hlen], ?_, ?_, ?_, hsub.cons₂ i, ?_, ?_⟩
        · simpa [LabeledSet.add_data, List.append_assoc] using hX
        · simpa [LabeledSet.add_data, List.append_assoc] using hy
        · simpa [LabeledSet.add_data, List.append_assoc] using hidx
        · intro j hj
          rcases List.mem_cons.mp hj with hj | hj
          · exact hj ▸ hi
          · intro hmem
            exact hfresh' j hj (List.mem_append_left _ hmem)
        · refine List.nodup_cons.mpr ⟨?_, hnd⟩
          intro hmem
          exact hfresh' i hmem (List.mem_append_right _ (List.mem_singleton.mpr rfl))

theorem eligible_toFinset (ls : LabeledSet) (e : List ℚ) (lab : ℕ) (i : ℕ) :
    (ls.add_data [e] [lab] [i]).indices.toFinset = ls.indices.toFinset ∪ {i} := by
  simp [LabeledSet.add_data]

/-- The selection loop succeeds whenever the candidate sequence holds at
least `b` eligible positions. -/
theorem selectLoop_isSome (dm : DataManager) (c : String) :
    ∀ (orders : List ℕ) (b : ℕ) (ls : LabeledSet),
      b ≤ eligibleCount orders ls →
      ∃ ls', selectLoop dm c orders b ls = some ls' := by
  intro orders
  induction orders with
  | nil =>
    intro b ls h
    cases b with
    | zero => exact ⟨ls, rfl⟩
    | succ b => simp [eligibleCount] at h
  | cons i rest ih =>
    intro b ls h
    cases b with
    | zero => exact ⟨ls, rfl⟩
    | succ b =>
      by_cases hi : i ∈ ls.indices
      · have hcard : eligibleCount rest ls = eligibleCount (i :: rest) ls := by
          unfold eligibleCount
          rw [List.toFinset_cons,
            Finset.insert_sdiff_of_mem _ (List.mem_toFinset.mpr hi)]
        obtain ⟨ls', hls'⟩ := ih (b + 1) ls (hcard ▸ h)
        exact ⟨ls', by simp only [selectLoop, if_pos hi]; exact hls'⟩
      · have hins : (i :: rest).toFinset \ ls.indices.toFinset
            = insert i (rest.toFinset \ ls.indices.toFinset) := by
          rw [List.toFinset_cons]
          ext j
          simp only [Finset.mem_sdiff, Finset.mem_insert]
          constructor
          · rintro ⟨hj | hj, hjt⟩
            · exact Or.inl hj
            · exact Or.inr ⟨hj, hjt⟩
          · rintro (hj | ⟨hj, hjt⟩)
            · subst hj
              exact ⟨Or.inl rfl, fun hm => hi (List.mem_toFinset.mp hm)⟩
            · exact ⟨Or.inr hj, hjt⟩
        have herase : rest.toFinset \ (ls.indices.toFinset ∪ {i})
            = (rest.toFinset \ ls.indices.toFinset).erase i := by
          ext j
          simp only [Finset.mem_sdiff, Finset.mem_union, Finset.mem_erase,
            Finset.mem_singleton]
          tauto
        have hcard2 : b ≤ eligibleCount rest
            (ls.add_data [dm.embedding_mm i] [oracleLabel dm c i] [i]) := by
          unfold eligibleCount at h ⊢
          rw [hins] at h
          rw [eligible_toFinset, herase]
          by_cases hiS : i ∈ rest.toFinset \ ls.indices.toFinset
          · rw [Finset.insert_eq_self.mpr hiS] at h
            rw [Finset.card_erase_of_mem hiS]
            omega
          · rw [Finset.card_insert_of_not_mem hiS] at h
            rw [Finset.erase_eq_of_not_mem hiS]
            omega
        obtain ⟨ls', hls'⟩ := ih b _ hcard2
        exact ⟨ls', by simp only [selectLoop, if_neg hi]; exact hls'⟩

/-- The selection loop fails (`IndexError` for MaxEnt-All, non-termination
for Random-All) whenever the candidate sequence holds fewer than `b` eligible
positions. -/
theorem selectLoop_eq_none (dm : DataManager) (c : String) :
    ∀ (orders : List ℕ) (b : ℕ) (ls : LabeledSet),
      eligibleCount orders ls < b →
      selectLoop dm c orders b ls = none := by
  intro orders
  induction orders with
  | nil =>
    intro b ls h
    cases b with
    | zero => simp at h
    | succ b => rfl
  | cons i rest ih =>
    intro b ls h
    cases b with
    | zero => simp at h
    | succ b =>
      by_cases hi : i ∈ ls.indices
      · have hcard : eligibleCount rest ls = eligibleCount (i :: rest) ls := by
          unfold eligibleCount
          rw [List.toFinset_cons,
            Finset.insert_sdiff_of_mem _ (List.mem_toFinset.mpr hi)]
        simp only [selectLoop, if_pos hi]
        exact ih (b + 1) ls (hcard ▸ h)
      · have hins : (i :: rest).toFinset \ ls.indices.toFinset
            = insert i (rest.toFinset \ ls.indices.toFinset) := by
          rw [List.toFinset_cons]
          ext j
          simp only [Finset.mem_sdiff, Finset.mem_insert]
          constructor
          · rintro ⟨hj | hj, hjt⟩
            · exact Or.inl hj
            · exact Or.inr ⟨hj, hjt⟩
          · rintro (hj | ⟨hj, hjt⟩)
            · subst hj
              exact ⟨Or.inl rfl, fun hm => hi (List.mem_toFinset.mp hm)⟩
            · exact ⟨Or.inr hj, hjt⟩
        have herase : rest.toFinset \ (ls.indices.toFinset ∪ {i})
            = (rest.toFinset \ ls.indices.toFinset).erase i := by
          ext j
          simp only [Finset.mem_sdiff, Finset.mem_union, Finset.mem_erase,
            Finset.mem_singleton]
          tauto
        have hcard2 : eligibleCount rest
            (ls.add_data [dm.embedding_mm i] [oracleLabel dm c i] [i]) < b := by
          unfold eligibleCount at h ⊢
          rw [hins] at h
          rw [eligible_toFinset, herase]
          have hiI : i ∈ insert i (rest.toFinset \ ls.indices.toFinset) :=
            Finset.mem_insert_self _ _
          by_cases hiS : i ∈ rest.toFinset \ ls.indices.toFinset
          · rw [Finset.insert_eq_self.mpr hiS] at h
            rw [Finset.card_erase_of_mem hiS]
            have : 0 < (rest.toFinset \ ls.indices.toFinset).card :=
              Finset.card_pos.mpr ⟨i, hiS⟩
            omega
          · rw [Finset.card_insert_of_not_mem hiS] at h
            rw [Finset.erase_eq_of_not_mem hiS]
            omega
        simp only [selectLoop, if_neg hi]
        exact ih b _ hcard2

/-! ### Properties of `np.argsort` and the MaxEnt entropy ranking -/

theorem argsort_perm {α : Type} [LinearOrderedCommRing α] (es : List α) :
    (argsort es).Perm (List.range es.length) :=
  List.perm_insertionSort _ _

/-- The scores read off along `argsort es` ascend. -/
theorem argsort_pairwise {α : Type} [LinearOrderedCommRing α] (es : List α) :
    (argsort es).Pairwise (fun i j => es.getD i 0 ≤ es.getD j 0) := by
  have htot : IsTotal ℕ (fun i j => es.getD i 0 ≤ es.getD j 0) :=
    ⟨fun a b => le_total (es.getD a 0) (es.getD b 0)⟩
  have htrans : IsTrans ℕ (fun i j => es.getD i 0 ≤ es.getD j 0) :=
    ⟨fun a b c hab hbc => le_trans hab hbc⟩
  exact @List.sorted_insertionSort ℕ (fun i j => es.getD i 0 ≤ es.getD j 0)
    (fun i j => inferInstanceAs (Decidable (es.getD i 0 ≤ es.getD j 0)))
    htot htrans (List.range es.length)

theorem entropies_length {α : Type} [LinearOrderedCommRing α] (log : α → α)
    (predict : List ℚ → α × α) (dm : DataManager) :
    (MaxEntAllBaseline.entropies log predict dm).length = dm.num_embeddings := by
  simp [MaxEntAllBaseline.entropies]

/-- Every position placed by `argsort` on the entropies array is a row index
of the store. -/
theorem argsort_entropies_mem {α : Type} [LinearOrderedCommRing α] (log : α → α)
    (predict : List ℚ → α × α) (dm : DataManager) (i : ℕ)
    (h : i ∈ argsort (MaxEntAllBaseline.entropies log predict dm)) :
    i < dm.num_embeddings := by
  have hperm := argsort_perm (MaxEntAllBaseline.entropies log predict dm)
  have := hperm.mem_iff.mp h
  rw [entropies_length] at this
  exact List.mem_range.mp this

/-- Under the labeled-set invariants, the eligible-candidate count of the
entropy ranking is the number of store rows not yet labeled. -/
theorem eligibleCount_argsort_entropies {α : Type} [LinearOrderedCommRing α]
    (log : α → α) (predict : List ℚ → α × α) (dm : DataManager)
    (ls : LabeledSet) (hnd : ls.indices.Nodup)
    (hlt : ∀ i ∈ ls.indices, i < dm.num_embeddings) :
    eligibleCount (argsort (MaxEntAllBaseline.entropies log predict dm)) ls
      = dm.num_embeddings - ls.indices.length := by
  unfold eligibleCount
  have hfin : (argsort (MaxEntAllBaseline.entropies log predict dm)).toFinset
      = Finset.range dm.num_embeddings := by
    rw [List.toFinset_eq_of_perm _ _ (argsort_perm _), entropies_length]
    ext a
    simp
  rw [hfin]
  have hsub : ls.indices.toFinset ⊆ Finset.range dm.num_embeddings := by
    intro a ha
    exact Finset.mem_range.mpr (hlt a (List.mem_toFinset.mp ha))
  rw [Finset.card_sdiff hsub, Finset.card_range,
    List.toFinset_card_of_nodup hnd]

/-- The score computed by the code on a binary probability row `(1 - p, p)`
is the negated binary entropy of the positive-class probability `p`. -/
theorem entropyScore_eq_neg_binEntropy (p : ℝ) :
    entropyScore Real.log (1 - p, p) = -Real.binEntropy p := by
  simp only [entropyScore, Real.binEntropy, Real.log_inv]
  ring

/-! ### Claim theorems -/

/-- C1: Max-entropy selection order.  A successful
`MaxEntAllBaseline.add_elements_to_set` takes candidates in ascending order
of the computed score `p1*log(p1) + p0*log(p0)` (first conjunct), that score
is the negated binary entropy of the positive-class probability (second
conjunct), so candidates are taken most-uncertain first; in particular the
score of probability 0.5 is strictly below the score of 0.99 (so 0.5 is
ranked above it), and the scores of 0.99 and 0.01 are tied (last two
conjuncts). -/
theorem maxEnt_selection_order :
    (∀ (α : Type) [LinearOrderedCommRing α] (log : α → α)
        (predict : List ℚ → α × α) (dm : DataManager) (c : String)
        (b : ℕ) (ls ls' : LabeledSet),
        MaxEntAllBaseline.add_elements_to_set log predict dm c b ls = some ls' →
        ((ls'.indices.drop ls.indices.length).map
            (fun i => (MaxEntAllBaseline.entropies log predict dm).getD i 0)).Pairwise
          (· ≤ ·))
    ∧ (∀ p : ℝ, entropyScore Real.log (1 - p, p) = -Real.binEntropy p)
    ∧ entropyScore Real.log ((1 : ℝ) / 2, 1 / 2)
        < entropyScore Real.log ((1 : ℝ) / 100, 99 / 100)
    ∧ entropyScore Real.log ((1 : ℝ) / 100, 99 / 100)
        = entropyScore Real.log ((99 : ℝ) / 100, 1 / 100) := by
  refine ⟨?_, entropyScore_eq_neg_binEntropy, ?_, ?_⟩
  · intro α _ log predict dm c b ls ls' h
    obtain ⟨sel, hlen, hX, hy, hidx, hsub, hfresh, hnd⟩ :=
      selectLoop_spec dm c _ b ls ls' h
    rw [hidx, List.drop_left]
    exact List.pairwise_map.mpr
      ((argsort_pairwise (MaxEntAllBaseline.entropies log predict dm)).sublist hsub)
  · have h12 : entropyScore Real.log ((1 : ℝ) / 2, 1 / 2)
        = -Real.binEntropy (1 / 2) := by
      have := entropyScore_eq_neg_binEntropy (1 / 2)
      norm_num at this ⊢
      convert this using 3
    have h99 : entropyScore Real.log ((1 : ℝ) / 100, 99 / 100)
        = -Real.binEntropy (99 / 100) := by
      have := entropyScore_eq_neg_binEntropy (99 / 100)
      norm_num at this ⊢
      convert this using 3
    rw [h12, h99, neg_lt_neg_iff]
    have hne : (99 : ℝ) / 100 ≠ 2⁻¹ := by norm_num
    have hlt := Real.binEntropy_lt_log_two.mpr hne
    have h2 : Real.binEntropy ((1 : ℝ) / 2) = Real.log 2 := by
      rw [show (1 : ℝ) / 2 = 2⁻¹ by norm_num, Real.binEntropy_two_inv]
    rw [h2]
    exact hlt
  · simp only [entropyScore]
    ring

/-- Closed instance of C1's first conjunct: on the three-row store `dmW` with
classifier `predW`, a batch of two from the empty labeled set selects rows
whose scores ascend. -/
theorem maxEnt_selection_order_witness :
    ((((⟨[[0], [1]], [0, 1], [0, 1]⟩ : LabeledSet)).indices.drop
        (LabeledSet.emptySet.indices.length)).map
      (fun i => (MaxEntAllBaseline.entropies (id : ℤ → ℤ) predW dmW).getD i 0)).Pairwise
      (· ≤ ·) :=
  maxEnt_selection_order.1 ℤ id predW dmW "c" 2 LabeledSet.emptySet
    ⟨[[0], [1]], [0, 1], [0, 1]⟩ (by decide)

/-- A successful selection run preserves distinctness of the labeled
indices. -/
theorem selectLoop_nodup (dm : DataManager) (c : String) (orders : List ℕ)
    (b : ℕ) (ls ls' : LabeledSet) (h : selectLoop dm c orders b ls = some ls')
    (hnd : ls.indices.Nodup) : ls'.indices.Nodup := by
  obtain ⟨sel, hlen, hX, hy, hidx, hsub, hfresh, hnd'⟩ :=
    selectLoop_spec dm c orders b ls ls' h
  rw [hidx]
  exact List.nodup_append.mpr
    ⟨hnd, hnd', fun a ha hb => hfresh a hb ha⟩

/-- When the store still holds `b` unlabeled rows, `MaxEnt-All` adds exactly
`b` fresh triples and keeps the labeled-set invariants. -/
theorem maxEnt_add_total {α : Type} [LinearOrderedCommRing α] (log : α → α)
    (predict : List ℚ → α × α) (dm : DataManager) (c : String) (b : ℕ)
    (ls : LabeledSet) (hnd : ls.indices.Nodup)
    (hlt : ∀ i ∈ ls.indices, i < dm.num_embeddings)
    (hb : ls.indices.length + b ≤ dm.num_embeddings) :
    ∃ ls', MaxEntAllBaseline.add_elements_to_set log predict dm c b ls = some ls' ∧
      ls'.X.length = ls.X.length + b ∧
      ls'.y.length = ls.y.length + b ∧
      ls'.indices.length = ls.indices.length + b ∧
      ls'.indices.Nodup ∧
      (∀ i ∈ ls'.indices, i < dm.num_embeddings) := by
  have hc : b ≤ eligibleCount
      (argsort (MaxEntAllBaseline.entropies log predict dm)) ls := by
    rw [eligibleCount_argsort_entropies log predict dm ls hnd hlt]
    omega
  obtain ⟨ls', hls'⟩ := selectLoop_isSome dm c _ b ls hc
  obtain ⟨sel, hlen, hX, hy, hidx, hsub, hfresh, hnd'⟩ :=
    selectLoop_spec dm c _ b ls ls' hls'
  refine ⟨ls', hls', ?_, ?_, ?_, ?_, ?_⟩
  · rw [hX]; simp [hlen]
  · rw [hy]; simp [hlen]
  · rw [hidx]; simp [hlen]
  · rw [hidx]
    exact List.nodup_append.mpr ⟨hnd, hnd', fun a ha hb2 => hfresh a hb2 ha⟩
  · rw [hidx]
    intro i hi
    rcases List.mem_append.mp hi with h | h
    · exact hlt i h
    · exact argsort_entropies_mem log predict dm i (hsub.subset h)

/-- Destructuring one `AllBaseline.iteration`: it succeeds exactly when the
round's `add_elements_to_set` does, the add being applied to the pre-round
labeled set and batch size. -/
theorem iteration_eq_some (metrics : LabeledSet → ℚ × ℚ × ℚ)
    (f : ℕ → LabeledSet → Option LabeledSet) (st st2 : BaselineState) :
    AllBaseline.iteration metrics f st = some st2 ↔
      ∃ ls', f st.batch_size st.labeled_set = some ls' ∧
        st2 = { compute_scores metrics st with labeled_set := ls' } := by
  simp only [AllBaseline.iteration, Option.map_eq_some']
  constructor
  · rintro ⟨ls', h1, h2⟩
    exact ⟨ls', h1, h2.symm⟩
  · rintro ⟨ls', h1, h2⟩
    exact ⟨ls', h1, h2.symm⟩

/-- Any property of the labeled set preserved by every round's
`add_elements_to_set` is preserved by a whole `AllBaseline` run. -/
theorem run_labeled_inv (metrics : LabeledSet → ℚ × ℚ × ℚ)
    (P : LabeledSet → Prop) :
    ∀ (fs : List (ℕ → LabeledSet → Option LabeledSet)),
      (∀ f ∈ fs, ∀ b ls ls', f b ls = some ls' → P ls → P ls') →
      ∀ st st', AllBaseline.run metrics fs st = some st' →
        P st.labeled_set → P st'.labeled_set := by
  intro fs
  induction fs with
  | nil =>
    intro _ st st' h hP
    simp only [AllBaseline.run, Option.some.injEq] at h
    exact h ▸ hP
  | cons f fs ih =>
    intro hf st st' h hP
    simp only [AllBaseline.run, Option.bind_eq_some] at h
    obtain ⟨st2, h2, h3⟩ := h
    obtain ⟨ls', hadd, rfl⟩ := (iteration_eq_some metrics f st st2).mp h2
    exact ih (fun g hg => hf g (List.mem_cons_of_mem f hg)) _ st' h3
      (hf f (List.mem_cons_self f fs) st.batch_size st.labeled_set ls' hadd hP)

/-- When the store never runs out of unlabeled rows, `r` rounds of MaxEnt-All
succeed and grow the labeled set by exactly `r` batches. -/
theorem maxEnt_runFor_total {α : Type} [LinearOrderedCommRing α] (log : α → α)
    (predict : LabeledSet → List ℚ → α × α)
    (metrics : LabeledSet → ℚ × ℚ × ℚ) (dm : DataManager) (c : String) :
    ∀ (r : ℕ) (st : BaselineState),
      st.labeled_set.indices.Nodup →
      (∀ i ∈ st.labeled_set.indices, i < dm.num_embeddings) →
      st.labeled_set.indices.length + r * st.batch_size ≤ dm.num_embeddings →
      ∃ st', MaxEntAllBaseline.runFor log predict metrics dm c r st = some st' ∧
        st'.labeled_set.indices.length
          = st.labeled_set.indices.length + r * st.batch_size ∧
        st'.batch_size = st.batch_size := by
  intro r
  induction r with
  | zero =>
    intro st _ _ _
    exact ⟨st, rfl, by simp, rfl⟩
  | succ r ih =>
    intro st hnd hlt hb
    obtain ⟨ls', hadd, hXl, hyl, hil, hnd', hlt'⟩ :=
      maxEnt_add_total log (predict st.labeled_set) dm c st.batch_size
        st.labeled_set hnd hlt
        (by
          have hr : (r + 1) * st.batch_size
              = st.batch_size + r * st.batch_size := by ring
          omega)
    set st2 : BaselineState :=
      { compute_scores metrics st with labeled_set := ls' } with hst2
    have h2 : AllBaseline.iteration metrics
        (MaxEntAllBaseline.addClosure log predict dm c) st = some st2 :=
      (iteration_eq_some _ _ _ _).mpr ⟨ls', hadd, rfl⟩
    have hbatch2 : st2.batch_size = st.batch_size := rfl
    have hls2 : st2.labeled_set = ls' := rfl
    obtain ⟨st', hrun, hlen, hbatch⟩ := ih st2
      (by rw [hls2]; exact hnd')
      (by rw [hls2]; exact hlt')
      (by
        rw [hls2, hbatch2, hil]
        have hr : (r + 1) * st.batch_size
            = st.batch_size + r * st.batch_size := by ring
        omega)
    refine ⟨st', ?_, ?_, ?_⟩
    · show AllBaseline.run metrics _ st = some st'
      rw [List.replicate_succ]
      simp only [AllBaseline.run]
      rw [h2]
      exact hrun
    · rw [hlen, hls2, hbatch2, hil]
      ring
    · rw [hbatch, hbatch2]

/-- C2: Batch size contract.  With at least `batch_size` unlabeled rows left
in the store, `MaxEntAllBaseline.add_elements_to_set` succeeds and appends
exactly `batch_size` new (embedding, label, index) triples (first conjunct);
every terminating `RandomAllBaseline.add_elements_to_set` call appends
exactly `batch_size` new triples (second conjunct); hence `r` MaxEnt-All
iterations from a seed set of size `s` leave the labeled set with exactly
`s + r * batch_size` elements (third conjunct). -/
theorem batch_size_contract :
    (∀ (α : Type) [LinearOrderedCommRing α] (log : α → α)
        (predict : List ℚ → α × α) (dm : DataManager) (c : String)
        (b : ℕ) (ls : LabeledSet),
        ls.indices.Nodup →
        (∀ i ∈ ls.indices, i < dm.num_embeddings) →
        ls.indices.length + b ≤ dm.num_embeddings →
        ∃ ls', MaxEntAllBaseline.add_elements_to_set log predict dm c b ls
            = some ls' ∧
          ls'.X.length = ls.X.length + b ∧
          ls'.y.length = ls.y.length + b ∧
          ls'.indices.length = ls.indices.length + b)
    ∧ (∀ (dm : DataManager) (c : String) (draws : List ℕ) (b : ℕ)
        (ls ls' : LabeledSet),
        RandomAllBaseline.add_elements_to_set dm c draws b ls = some ls' →
        ls'.X.length = ls.X.length + b ∧
        ls'.y.length = ls.y.length + b ∧
        ls'.indices.length = ls.indices.length + b)
    ∧ (∀ (α : Type) [LinearOrderedCommRing α] (log : α → α)
        (predict : LabeledSet → List ℚ → α × α)
        (metrics : LabeledSet → ℚ × ℚ × ℚ) (dm : DataManager) (c : String)
        (r : ℕ) (st : BaselineState),
        st.labeled_set.indices.Nodup →
        (∀ i ∈ st.labeled_set.indices, i < dm.num_embeddings) →
        st.labeled_set.indices.length + r * st.batch_size ≤ dm.num_embeddings →
        ∃ st', MaxEntAllBaseline.runFor log predict metrics dm c r st = some st' ∧
          st'.labeled_set.indices.length
            = st.labeled_set.indices.length + r * st.batch_size) := by
  refine ⟨?_, ?_, ?_⟩
  · intro α _ log predict dm c b ls hnd hlt hb
    obtain ⟨ls', h1, h2, h3, h4, _, _⟩ :=
      maxEnt_add_total log predict dm c b ls hnd hlt hb
    exact ⟨ls', h1, h2, h3, h4⟩
  · intro dm c draws b ls ls' h
    obtain ⟨sel, hlen, hX, hy, hidx, _, _, _⟩ :=
      selectLoop_spec dm c draws b ls ls' h
    refine ⟨?_, ?_, ?_⟩
    · rw [hX]; simp [hlen]
    · rw [hy]; simp [hlen]
    · rw [hidx]; simp [hlen]
  · intro α _ log predict metrics dm c r st hnd hlt hb
    obtain ⟨st', h1, h2, _⟩ :=
      maxEnt_runFor_total log predict metrics dm c r st hnd hlt hb
    exact ⟨st', h1, h2⟩

/-- Closed instance of C2's third conjunct: two rounds of batch one on the
three-row store grow the seed set of size one to exactly three. -/
theorem batch_size_contract_witness :
    ∃ st', MaxEntAllBaseline.runFor (id : ℤ → ℤ) predLsW metricsW dmW "c" 2
        ⟨baseInitScores, seedW, 1, true⟩ = some st' ∧
      st'.labeled_set.indices.length = seedW.indices.length + 2 * 1 :=
  batch_size_contract.2.2 ℤ id predLsW metricsW dmW "c" 2
    ⟨baseInitScores, seedW, 1, true⟩ (by decide) (by decide) (by decide)

/-- C3: No-duplicate invariant.  Both `add_elements_to_set` variants, and
whole runs of either baseline, preserve pairwise distinctness of the labeled
indices: no already-labeled index is appended again. -/
theorem no_duplicate_selection :
    (∀ (α : Type) [LinearOrderedCommRing α] (log : α → α)
        (predict : List ℚ → α × α) (dm : DataManager) (c : String)
        (b : ℕ) (ls ls' : LabeledSet),
        MaxEntAllBaseline.add_elements_to_set log predict dm c b ls = some ls' →
        ls.indices.Nodup → ls'.indices.Nodup)
    ∧ (∀ (dm : DataManager) (c : String) (draws : List ℕ) (b : ℕ)
        (ls ls' : LabeledSet),
        RandomAllBaseline.add_elements_to_set dm c draws b ls = some ls' →
        ls.indices.Nodup → ls'.indices.Nodup)
    ∧ (∀ (α : Type) [LinearOrderedCommRing α] (log : α → α)
        (predict : LabeledSet → List ℚ → α × α)
        (metrics : LabeledSet → ℚ × ℚ × ℚ) (dm : DataManager) (c : String)
        (r : ℕ) (st st' : BaselineState),
        MaxEntAllBaseline.runFor log predict metrics dm c r st = some st' →
        st.labeled_set.indices.Nodup → st'.labeled_set.indices.Nodup)
    ∧ (∀ (metrics : LabeledSet → ℚ × ℚ × ℚ) (dm : DataManager) (c : String)
        (draws : List (List ℕ)) (st st' : BaselineState),
        RandomAllBaseline.runWith metrics dm c draws st = some st' →
        st.labeled_set.indices.Nodup → st'.labeled_set.indices.Nodup) := by
  refine ⟨?_, ?_, ?_, ?_⟩
  · intro α _ log predict dm c b ls ls' h hnd
    exact selectLoop_nodup dm c _ b ls ls' h hnd
  · intro dm c draws b ls ls' h hnd
    exact selectLoop_nodup dm c draws b ls ls' h hnd
  · intro α _ log predict metrics dm c r st st' h hnd
    refine run_labeled_inv metrics (fun ls => ls.indices.Nodup) _
      ?_ st st' h hnd
    intro f hf b ls ls' hadd hP
    rcases List.eq_of_mem_replicate hf with rfl
    exact selectLoop_nodup dm c _ b ls ls'
      (by
        simpa [MaxEntAllBaseline.addClosure,
          MaxEntAllBaseline.add_elements_to_set] using hadd) hP
  · intro metrics dm c draws st st' h hnd
    refine run_labeled_inv metrics (fun ls => ls.indices.Nodup) _
      ?_ st st' h hnd
    intro f hf b ls ls' hadd hP
    obtain ⟨d, _, rfl⟩ := List.mem_map.mp hf
    exact selectLoop_nodup dm c d b ls ls' hadd hP

/-- Closed instance of C3's first conjunct: a MaxEnt-All batch of two on the
three-row store keeps the labeled indices pairwise distinct. -/
theorem no_duplicate_selection_witness :
    (⟨[[0], [1]], [0, 1], [0, 1]⟩ : LabeledSet).indices.Nodup :=
  no_duplicate_selection.1 ℤ id predW dmW "c" 2 LabeledSet.emptySet
    ⟨[[0], [1]], [0, 1], [0, 1]⟩ (by decide) (by decide)

/-- C5 counterexample: on the one-row store `dmW1` whose only row is already
labeled, a MaxEnt-All batch of one does not return the (empty) set of
remaining eligible candidates — the scan runs past the end of the ranking,
which is the `IndexError` of `entropy_orders[index]`, modelled as `none`. -/
theorem degraded_batch_counterexample :
    MaxEntAllBaseline.add_elements_to_set (id : ℤ → ℤ) predW dmW1 "c" 1 lsW1
      = none := by
  decide

/-- C5 amended: whenever fewer than `batch_size` eligible candidates remain,
neither baseline degrades gracefully: `MaxEntAllBaseline.add_elements_to_set`
raises `IndexError` (modelled `none`, first conjunct), and
`RandomAllBaseline.add_elements_to_set` never terminates — it fails for every
draw stream confined to the store (second conjunct). -/
theorem degraded_batch_amended :
    (∀ (α : Type) [LinearOrderedCommRing α] (log : α → α)
        (predict : List ℚ → α × α) (dm : DataManager) (c : String)
        (b : ℕ) (ls : LabeledSet),
        ls.indices.Nodup →
        (∀ i ∈ ls.indices, i < dm.num_embeddings) →
        dm.num_embeddings - ls.indices.length < b →
        MaxEntAllBaseline.add_elements_to_set log predict dm c b ls = none)
    ∧ (∀ (dm : DataManager) (c : String) (draws : List ℕ) (b : ℕ)
        (ls : LabeledSet),
        (∀ i ∈ draws, i < dm.num_embeddings) →
        (Finset.range dm.num_embeddings \ ls.indices.toFinset).card < b →
        RandomAllBaseline.add_elements_to_set dm c draws b ls = none) := by
  constructor
  · intro α _ log predict dm c b ls hnd hlt hb
    apply selectLoop_eq_none
    rw [eligibleCount_argsort_entropies log predict dm ls hnd hlt]
    exact hb
  · intro dm c draws b ls hdr hb
    apply selectLoop_eq_none
    refine lt_of_le_of_lt ?_ hb
    apply Finset.card_le_card
    apply Finset.sdiff_subset_sdiff ?_ le_rfl
    intro a ha
    exact Finset.mem_range.mpr (hdr a (List.mem_toFinset.mp ha))

/-- Closed instance of C5's amended first conjunct: on the two-row store with
both rows labeled, a MaxEnt-All batch of one fails. -/
theorem degraded_batch_amended_witness :
    MaxEntAllBaseline.add_elements_to_set (id : ℤ → ℤ) predW dmW2 "c" 1
      ⟨[[0], [1]], [0, 1], [0, 1]⟩ = none :=
  degraded_batch_amended.1 ℤ id predW dmW2 "c" 1
    ⟨[[0], [1]], [0, 1], [0, 1]⟩ (by decide) (by decide) (by decide)

theorem mem_zip_map (f : ℕ → ℕ) :
    ∀ (l : List ℕ) (p : ℕ × ℕ), p ∈ (l.map f).zip l → p.1 = f p.2 := by
  intro l
  induction l with
  | nil => intro p h; simp at h
  | cons a t ih =>
    intro p h
    simp only [List.map_cons, List.zip_cons_cons, List.mem_cons] at h
    rcases h with rfl | h
    · rfl
    · exact ih p h

/-- A successful selection run labels every appended index with the oracle
label and keeps labels and indices aligned. -/
theorem selectLoop_oracle (dm : DataManager) (c : String) (orders : List ℕ)
    (b : ℕ) (ls ls' : LabeledSet) (h : selectLoop dm c orders b ls = some ls')
    (hlen : ls.y.length = ls.indices.length)
    (hm : labelsMatchOracle dm c ls) :
    ls'.y.length = ls'.indices.length ∧ labelsMatchOracle dm c ls' := by
  obtain ⟨sel, hslen, hX, hy, hidx, hsub, hfresh, hnd⟩ :=
    selectLoop_spec dm c orders b ls ls' h
  constructor
  · rw [hy, hidx]; simp [hlen]
  · intro p hp
    rw [hy, hidx, List.zip_append (by simp [hlen])] at hp
    rcases List.mem_append.mp hp with hp | hp
    · exact hm p hp
    · exact mem_zip_map (oracleLabel dm c) sel p hp

/-- C7: Oracle labeling correctness.  The label computed by both selection
loops is `1` exactly when the index is a true positive of the evaluated class
and `0` otherwise (first conjunct), and every labeled set produced by
`MaxEntAllBaseline.add_elements_to_set` or
`RandomAllBaseline.add_elements_to_set` from an oracle-consistent set is
oracle-consistent: each appended label equals the oracle label of its paired
index (remaining conjuncts). -/
theorem oracle_labeling_correct :
    (∀ (dm : DataManager) (c : String) (i : ℕ),
        (oracleLabel dm c i = 1 ↔ i ∈ dm.eval_class_indices c) ∧
        (oracleLabel dm c i = 0 ↔ i ∉ dm.eval_class_indices c))
    ∧ (∀ (α : Type) [LinearOrderedCommRing α] (log : α → α)
        (predict : List ℚ → α × α) (dm : DataManager) (c : String)
        (b : ℕ) (ls ls' : LabeledSet),
        MaxEntAllBaseline.add_elements_to_set log predict dm c b ls = some ls' →
        ls.y.length = ls.indices.length →
        labelsMatchOracle dm c ls →
        ls'.y.length = ls'.indices.length ∧ labelsMatchOracle dm c ls')
    ∧ (∀ (dm : DataManager) (c : String) (draws : List ℕ) (b : ℕ)
        (ls ls' : LabeledSet),
        RandomAllBaseline.add_elements_to_set dm c draws b ls = some ls' →
        ls.y.length = ls.indices.length →
        labelsMatchOracle dm c ls →
        ls'.y.length = ls'.indices.length ∧ labelsMatchOracle dm c ls') := by
  refine ⟨?_, ?_, ?_⟩
  · intro dm c i
    unfold oracleLabel
    by_cases h : i ∈ dm.eval_class_indices c
    · rw [if_pos h]
      constructor
      · exact ⟨fun _ => h, fun _ => rfl⟩
      · exact ⟨fun h0 => absurd h0 one_ne_zero, fun hn => absurd h hn⟩
    · rw [if_neg h]
      constructor
      · exact ⟨fun h0 => absurd h0.symm one_ne_zero, fun hi => absurd hi h⟩
      · exact ⟨fun _ => h, fun _ => rfl⟩
  · intro α _ log predict dm c b ls ls' h hlen hm
    exact selectLoop_oracle dm c _ b ls ls' h hlen hm
  · intro dm c draws b ls ls' h hlen hm
    exact selectLoop_oracle dm c draws b ls ls' h hlen hm

/-- Closed instance of C7's second conjunct: the labels selected by a
MaxEnt-All batch of two on the three-row store match the oracle (row 1 is the
class's only true positive). -/
theorem oracle_labeling_correct_witness :
    (⟨[[0], [1]], [0, 1], [0, 1]⟩ : LabeledSet).y.length
        = (⟨[[0], [1]], [0, 1], [0, 1]⟩ : LabeledSet).indices.length ∧
      labelsMatchOracle dmW "c" ⟨[[0], [1]], [0, 1], [0, 1]⟩ :=
  oracle_labeling_correct.2.1 ℤ id predW dmW "c" 2 LabeledSet.emptySet
    ⟨[[0], [1]], [0, 1], [0, 1]⟩ (by decide) (by decide)
    (by intro p hp; simp [LabeledSet.emptySet] at hp)

/-- C4 counterexample: the entropy computation is fed the probabilities
unclamped, so the probability row `(1, 0)` — positive-class probability
exactly 0 — produces `0 * log 0 = 0 * (-inf)`, a NaN entropy entry, contrary
to the claim that entropies contain no NaN for such rows. -/
theorem clamping_counterexample : entropyClass 1 0 = NpClass.nan := by
  decide

/-- C4 amended: `MaxEntAllBaseline.add_elements_to_set` applies no clamping
before `np.log`; the computed entropy entry is finite (neither NaN nor
`-inf`) exactly on probability rows whose two entries are strictly positive —
a probability equal to 0 (or, via the complementary column, to 1) yields a
NaN entry instead. -/
theorem clamping_amended (p0 p1 : ℚ) (hp0 : 0 < p0) (hp1 : 0 < p1) :
    entropyClass p0 p1 = NpClass.finite := by
  unfold entropyClass npLogClass
  rw [if_neg (not_lt.mpr hp1.le), if_neg hp1.ne', if_neg (not_lt.mpr hp0.le),
    if_neg hp0.ne']
  rfl

/-- Closed instance of C4's amended statement: strictly positive entries give
a finite entropy entry. -/
theorem clamping_amended_witness : entropyClass 1 1 = NpClass.finite :=
  clamping_amended 1 1 (by decide) (by decide)

/-- C6 counterexample: with the seed set, store and classifier all fixed (the
classifier plays no role in Random-All), two runs of
`RandomAllBaseline.add_elements_to_set` under different global-RNG draw
streams select different indices, so the Random-All selection is not
determined by the inputs the claim fixes. -/
theorem determinism_counterexample :
    RandomAllBaseline.add_elements_to_set dmW2 "c" [0] 1 LabeledSet.emptySet
      ≠ RandomAllBaseline.add_elements_to_set dmW2 "c" [1] 1 LabeledSet.emptySet := by
  decide

/-- C6 amended: `MaxEntAllBaseline.add_elements_to_set` is a deterministic
function of the labeled set, store, eval class, batch size and classifier
(first conjunct); `RandomAllBaseline.add_elements_to_set` is deterministic
only once the global NumPy draw stream is fixed in addition to those inputs
(second conjunct). -/
theorem determinism_amended :
    (∀ (α : Type) [LinearOrderedCommRing α] (log : α → α)
        (predict₁ predict₂ : List ℚ → α × α) (dm₁ dm₂ : DataManager)
        (c₁ c₂ : String) (b₁ b₂ : ℕ) (ls₁ ls₂ : LabeledSet),
        predict₁ = predict₂ → dm₁ = dm₂ → c₁ = c₂ → b₁ = b₂ → ls₁ = ls₂ →
        MaxEntAllBaseline.add_elements_to_set log predict₁ dm₁ c₁ b₁ ls₁
          = MaxEntAllBaseline.add_elements_to_set log predict₂ dm₂ c₂ b₂ ls₂)
    ∧ (∀ (dm₁ dm₂ : DataManager) (c₁ c₂ : String) (draws₁ draws₂ : List ℕ)
        (b₁ b₂ : ℕ) (ls₁ ls₂ : LabeledSet),
        dm₁ = dm₂ → c₁ = c₂ → draws₁ = draws₂ → b₁ = b₂ → ls₁ = ls₂ →
        RandomAllBaseline.add_elements_to_set dm₁ c₁ draws₁ b₁ ls₁
          = RandomAllBaseline.add_elements_to_set dm₂ c₂ draws₂ b₂ ls₂) := by
  constructor
  · intro α _ log predict₁ predict₂ dm₁ dm₂ c₁ c₂ b₁ b₂ ls₁ ls₂ h1 h2 h3 h4 h5
    rw [h1, h2, h3, h4, h5]
  · intro dm₁ dm₂ c₁ c₂ draws₁ draws₂ b₁ b₂ ls₁ ls₂ h1 h2 h3 h4 h5
    rw [h1, h2, h3, h4, h5]

/-- Closed instance of C6's amended second conjunct: two Random-All runs with
equal inputs and equal draw streams coincide. -/
theorem determinism_amended_witness :
    RandomAllBaseline.add_elements_to_set dmW2 "c" [0] 1 LabeledSet.emptySet
      = RandomAllBaseline.add_elements_to_set dmW2 "c" [0] 1 LabeledSet.emptySet :=
  determinism_amended.2 dmW2 dmW2 "c" "c" [0] [0] 1 1
    LabeledSet.emptySet LabeledSet.emptySet rfl rfl rfl rfl rfl

/-- `compute_scores` appends exactly one value to each of the four metric
lists. -/
theorem compute_scores_shape (metrics : LabeledSet → ℚ × ℚ × ℚ)
    (st : BaselineState) (l1 l2 l3 l4 : List ℚ)
    (h : st.scores = [("precision", l1), ("recall", l2),
      ("average_precision", l3), ("positives", l4)]) :
    (compute_scores metrics st).scores
      = [("precision", l1 ++ [(metrics st.labeled_set).1]),
         ("recall", l2 ++ [(metrics st.labeled_set).2.1]),
         ("average_precision", l3 ++ [(metrics st.labeled_set).2.2]),
         ("positives", l4 ++ [(st.labeled_set.y.sum : ℚ)])] := by
  simp [compute_scores, appendScore, h]

theorem chain_append_last (l : List ℚ) (x : ℚ) (hch : l.Chain' (· ≤ ·))
    (hb : ∀ y ∈ l, y ≤ x) : (l ++ [x]).Chain' (· ≤ ·) := by
  rw [List.chain'_append]
  refine ⟨hch, List.chain'_singleton x, ?_⟩
  intro y hy z hz
  simp only [List.head?_cons, Option.mem_def, Option.some.injEq] at hz
  subst hz
  obtain ⟨hne, rfl⟩ := List.mem_getLast?_eq_getLast hy
  exact hb _ (List.getLast_mem hne)

/-- One `AllBaseline.iteration` preserves the scores invariant, advancing the
round count: each list gains one entry and the positives series stays
ascending because the labeled set only ever gains labels. -/
theorem iteration_scoresOk (metrics : LabeledSet → ℚ × ℚ × ℚ)
    (f : ℕ → LabeledSet → Option LabeledSet) (st st2 : BaselineState) (n : ℕ)
    (h : AllBaseline.iteration metrics f st = some st2)
    (hext : ∀ b ls ls', f b ls = some ls' → ∃ ext, ls'.y = ls.y ++ ext)
    (hok : scoresOk st n) : scoresOk st2 (n + 1) := by
  obtain ⟨ls', hadd, rfl⟩ := (iteration_eq_some metrics f st st2).mp h
  obtain ⟨l1, l2, l3, l4, hsc, h1, h2, h3, h4, hch, hbd⟩ := hok
  obtain ⟨ext, hy⟩ := hext st.batch_size st.labeled_set ls' hadd
  have hsum : st.labeled_set.y.sum ≤ ls'.y.sum := by
    rw [hy, List.sum_append]
    exact Nat.le_add_right _ _
  refine ⟨l1 ++ [(metrics st.labeled_set).1], l2 ++ [(metrics st.labeled_set).2.1],
    l3 ++ [(metrics st.labeled_set).2.2], l4 ++ [(st.labeled_set.y.sum : ℚ)],
    ?_, ?_, ?_, ?_, ?_, ?_, ?_⟩
  · show (compute_scores metrics st).scores = _
    exact compute_scores_shape metrics st l1 l2 l3 l4 hsc
  · simp [h1]
  · simp [h2]
  · simp [h3]
  · simp [h4]
  · exact chain_append_last l4 _ hch hbd
  · intro x hx
    have hcast : (st.labeled_set.y.sum : ℚ) ≤ (ls'.y.sum : ℚ) :=
      Nat.cast_le.mpr hsum
    rcases List.mem_append.mp hx with hx | hx
    · exact le_trans (hbd x hx) hcast
    · rw [List.mem_singleton.mp hx]
      exact hcast

/-- A whole `AllBaseline` run advances the scores invariant by one round per
iteration, provided every round's add only appends labels. -/
theorem run_scoresOk (metrics : LabeledSet → ℚ × ℚ × ℚ) :
    ∀ (fs : List (ℕ → LabeledSet → Option LabeledSet)),
      (∀ f ∈ fs, ∀ b ls ls', f b ls = some ls' → ∃ ext, ls'.y = ls.y ++ ext) →
      ∀ (st st' : BaselineState) (n : ℕ),
        AllBaseline.run metrics fs st = some st' →
        scoresOk st n → scoresOk st' (n + fs.length) := by
  intro fs
  induction fs with
  | nil =>
    intro _ st st' n h hok
    simp only [AllBaseline.run, Option.some.injEq] at h
    simpa [← h] using hok
  | cons f fs ih =>
    intro hext st st' n h hok
    simp only [AllBaseline.run, Option.bind_eq_some] at h
    obtain ⟨st2, h2, h3⟩ := h
    have hok2 := iteration_scoresOk metrics f st st2 n h2
      (hext f (List.mem_cons_self f fs)) hok
    have := ih (fun g hg => hext g (List.mem_cons_of_mem f hg)) st2 st' (n + 1)
      h3 hok2
    simpa [Nat.add_assoc, Nat.add_comm 1 fs.length] using this

/-- Every selection loop only appends to the label list. -/
theorem selectLoop_y_append (dm : DataManager) (c : String) (orders : List ℕ)
    (b : ℕ) (ls ls' : LabeledSet) (h : selectLoop dm c orders b ls = some ls') :
    ∃ ext, ls'.y = ls.y ++ ext := by
  obtain ⟨sel, _, _, hy, _, _, _, _⟩ := selectLoop_spec dm c orders b ls ls' h
  exact ⟨sel.map (oracleLabel dm c), hy⟩

/-- C8: Score series shape and monotonicity.  A completed run of `r`
MaxEnt-All iterations starting from the as-constructed scores dictionary
leaves each of the four metric lists with exactly `r` entries — one appended
per iteration — and the recorded positives series is monotonically
non-decreasing; likewise for a Random-All run of `r = draws.length`
iterations. -/
theorem score_series_shape :
    (∀ (α : Type) [LinearOrderedCommRing α] (log : α → α)
        (predict : LabeledSet → List ℚ → α × α)
        (metrics : LabeledSet → ℚ × ℚ × ℚ) (dm : DataManager) (c : String)
        (r : ℕ) (st st' : BaselineState),
        MaxEntAllBaseline.runFor log predict metrics dm c r st = some st' →
        st.scores = baseInitScores →
        (getScore st'.scores "precision").length = r ∧
        (getScore st'.scores "recall").length = r ∧
        (getScore st'.scores "average_precision").length = r ∧
        (getScore st'.scores "positives").length = r ∧
        (getScore st'.scores "positives").Chain' (· ≤ ·))
    ∧ (∀ (metrics : LabeledSet → ℚ × ℚ × ℚ) (dm : DataManager) (c : String)
        (draws : List (List ℕ)) (st st' : BaselineState),
        RandomAllBaseline.runWith metrics dm c draws st = some st' →
        st.scores = baseInitScores →
        (getScore st'.scores "precision").length = draws.length ∧
        (getScore st'.scores "recall").length = draws.length ∧
        (getScore st'.scores "average_precision").length = draws.length ∧
        (getScore st'.scores "positives").length = draws.length ∧
        (getScore st'.scores "positives").Chain' (· ≤ ·)) := by
  have hbase : ∀ st : BaselineState, st.scores = baseInitScores → scoresOk st 0 :=
    fun st h => ⟨[], [], [], [], h, rfl, rfl, rfl, rfl, List.chain'_nil,
      fun x hx => absurd hx (List.not_mem_nil x)⟩
  have hread : ∀ (st' : BaselineState) (m : ℕ), scoresOk st' m →
      (getScore st'.scores "precision").length = m ∧
      (getScore st'.scores "recall").length = m ∧
      (getScore st'.scores "average_precision").length = m ∧
      (getScore st'.scores "positives").length = m ∧
      (getScore st'.scores "positives").Chain' (· ≤ ·) := by
    rintro st' m ⟨l1, l2, l3, l4, hsc, h1, h2, h3, h4, hch, _⟩
    rw [hsc]
    refine ⟨?_, ?_, ?_, ?_, ?_⟩ <;> simp [getScore, h1, h2, h3, h4, hch]
  constructor
  · intro α _ log predict metrics dm c r st st' h hsc
    have hok := run_scoresOk metrics _
      (by
        intro f hf b ls ls' hadd
        rcases List.eq_of_mem_replicate hf with rfl
        exact selectLoop_y_append dm c _ b ls ls'
          (by
            simpa [MaxEntAllBaseline.addClosure,
              MaxEntAllBaseline.add_elements_to_set] using hadd))
      st st' 0 h (hbase st hsc)
    rw [List.length_replicate] at hok
    exact hread st' r (by simpa using hok)
  · intro metrics dm c draws st st' h hsc
    have hok := run_scoresOk metrics _
      (by
        intro f hf b ls ls' hadd
        obtain ⟨d, _, rfl⟩ := List.mem_map.mp hf
        exact selectLoop_y_append dm c d b ls ls' hadd)
      st st' 0 h (hbase st hsc)
    rw [List.length_map] at hok
    exact hread st' draws.length (by simpa using hok)

/-- Closed instance of C8's first conjunct: two MaxEnt-All rounds of batch
one on the three-row store record two entries per metric and an ascending
positives series. -/
theorem score_series_shape_witness :
    (getScore [("precision", [(1 : ℚ), 1]), ("recall", [(1 : ℚ), 1]),
        ("average_precision", [(1 : ℚ), 1]), ("positives", [(1 : ℚ), 2])]
      "precision").length = 2 ∧
    (getScore [("precision", [(1 : ℚ), 1]), ("recall", [(1 : ℚ), 1]),
        ("average_precision", [(1 : ℚ), 1]), ("positives", [(1 : ℚ), 2])]
      "recall").length = 2 ∧
    (getScore [("precision", [(1 : ℚ), 1]), ("recall", [(1 : ℚ), 1]),
        ("average_precision", [(1 : ℚ), 1]), ("positives", [(1 : ℚ), 2])]
      "average_precision").length = 2 ∧
    (getScore [("precision", [(1 : ℚ), 1]), ("recall", [(1 : ℚ), 1]),
        ("average_precision", [(1 : ℚ), 1]), ("positives", [(1 : ℚ), 2])]
      "positives").length = 2 ∧
    (getScore [("precision", [(1 : ℚ), 1]), ("recall", [(1 : ℚ), 1]),
        ("average_precision", [(1 : ℚ), 1]), ("positives", [(1 : ℚ), 2])]
      "positives").Chain' (· ≤ ·) :=
  score_series_shape.1 ℤ id predLsW metricsW dmW "c" 2
    ⟨baseInitScores, seedW, 1, true⟩
    ⟨[("precision", [1, 1]), ("recall", [1, 1]),
      ("average_precision", [1, 1]), ("positives", [1, 2])],
     ⟨[[0], [1], [2]], [1, 1, 0], [0, 1, 2]⟩, 1, true⟩
    (by decide) rfl

/-- C9 counterexample: `finish_run` on a freshly constructed
`FullSupervisionBaseline` does not restore the as-constructed scores
dictionary — the reset dictionary carries the `"positives"` key that
`FullSupervisionBaseline.__init__` never installs. -/
theorem finish_run_counterexample :
    (finish_run fullSupervisionInit).2.scores ≠ fullSupervisionInit.scores := by
  decide

/-- C9 amended: `finish_run` returns exactly the accumulated score lists and
resets the labeled set to empty and the scores to the four-key empty
dictionary of `BaseBaselineALgorithm.__init__`; for the `AllBaseline`
variants this reset state is exactly the as-constructed state (second
conjunct), while `FullSupervisionBaseline` is constructed with a three-key
dictionary, so its reset differs from as-constructed by the extra empty
`"positives"` entry — either way no labeled data or scores survive into the
next repetition. -/
theorem finish_run_reset :
    (∀ st : BaselineState,
        (finish_run st).1 = st.scores ∧
        (finish_run st).2.scores = baseInitScores ∧
        (finish_run st).2.labeled_set = LabeledSet.emptySet ∧
        (finish_run st).2.batch_size = st.batch_size)
    ∧ (finish_run baseInit).2 = baseInit := by
  constructor
  · intro st
    exact ⟨rfl, rfl, rfl, rfl⟩
  · rfl

theorem getScore_setScore_self (s : Scores) (k : String) (v : List ℚ) :
    getScore (setScore s k v) k = v := by
  unfold setScore getScore
  by_cases h : s.any (fun p => p.1 == k)
  · rw [if_pos h, List.find?_map]
    have hpf : ((fun p : String × List ℚ => p.1 == k) ∘
        (fun p : String × List ℚ => if p.1 = k then (p.1, v) else p))
        = fun p : String × List ℚ => p.1 == k := by
      funext p
      by_cases hp : p.1 = k
      · simp [hp]
      · simp [hp]
    rw [hpf]
    cases hfind : s.find? (fun p => p.1 == k) with
    | none =>
      rw [List.find?_eq_none] at hfind
      obtain ⟨x, hx, hxk⟩ := List.any_eq_true.mp h
      exact absurd hxk (hfind x hx)
    | some q =>
      have hq : q.1 = k := by simpa using List.find?_some hfind
      simp only [Option.map_some', if_pos hq]
  · rw [if_neg h, List.find?_append]
    have hnone : s.find? (fun p => p.1 == k) = none := by
      rw [List.find?_eq_none]
      intro x hx hxk
      exact h (List.any_eq_true.mpr ⟨x, hx, hxk⟩)
    rw [hnone]
    simp [List.find?]

theorem getScore_setScore_ne (s : Scores) (k k' : String) (v : List ℚ)
    (h : k ≠ k') : getScore (setScore s k' v) k = getScore s k := by
  unfold setScore getScore
  by_cases ha : s.any (fun p => p.1 == k')
  · rw [if_pos ha, List.find?_map]
    have hpf : ((fun p : String × List ℚ => p.1 == k) ∘
        (fun p : String × List ℚ => if p.1 = k' then (p.1, v) else p))
        = fun p : String × List ℚ => p.1 == k := by
      funext p
      by_cases hp : p.1 = k'
      · simp [hp, Ne.symm h]
      · simp [hp]
    rw [hpf]
    cases hfind : s.find? (fun p => p.1 == k) with
    | none => rfl
    | some q =>
      have hq : q.1 = k := by simpa using List.find?_some hfind
      have : (if q.1 = k' then (q.1, v) else q) = q :=
        if_neg (by rw [hq]; exact h)
      simp only [Option.map_some', this]
  · rw [if_neg ha, List.find?_append]
    have hk : (((k', v) : String × List ℚ).1 == k) = false := by
      simpa using Ne.symm h
    cases hfind : s.find? (fun p => p.1 == k) with
    | none => simp [List.find?, hk]
    | some q => rfl

/-- Once the `new_class` flag is down, any number of further
`FullSupervisionBaseline.iteration` calls is the identity. -/
theorem fs_runFor_fixed (m : ℚ × ℚ × ℚ) :
    ∀ (k : ℕ) (st : BaselineState), st.new_class = false →
      FullSupervisionBaseline.runFor m k st = st := by
  intro k
  induction k with
  | zero => intro st _; rfl
  | succ k ih =>
    intro st h
    show FullSupervisionBaseline.runFor m k
      (FullSupervisionBaseline.iteration m st) = st
    rw [show FullSupervisionBaseline.iteration m st = st by
      simp [FullSupervisionBaseline.iteration, h]]
    exact ih st h

/-- C10: Full-supervision one-shot behavior.  An iteration with the
`new_class` flag down is the identity on the whole state (first conjunct);
any iteration leaves the flag down (second conjunct), so `k + 1` iterations
equal a single one — the recorded series is independent of the round budget
(third conjunct); the first iteration records each metric as one evaluation
replicated exactly 20 times and leaves the labeled set untouched (fourth
conjunct); and the iteration commutes with any change of the configured
batch size, which it never reads (fifth conjunct). -/
theorem full_supervision_one_shot :
    (∀ (m : ℚ × ℚ × ℚ) (st : BaselineState), st.new_class = false →
        FullSupervisionBaseline.iteration m st = st)
    ∧ (∀ (m : ℚ × ℚ × ℚ) (st : BaselineState),
        (FullSupervisionBaseline.iteration m st).new_class = false)
    ∧ (∀ (m : ℚ × ℚ × ℚ) (st : BaselineState) (k : ℕ),
        FullSupervisionBaseline.runFor m (k + 1) st
          = FullSupervisionBaseline.iteration m st)
    ∧ (∀ (m : ℚ × ℚ × ℚ) (st : BaselineState), st.new_class = true →
        getScore (FullSupervisionBaseline.iteration m st).scores "precision"
            = List.replicate 20 m.1 ∧
        getScore (FullSupervisionBaseline.iteration m st).scores "recall"
            = List.replicate 20 m.2.1 ∧
        getScore (FullSupervisionBaseline.iteration m st).scores
            "average_precision" = List.replicate 20 m.2.2 ∧
        (FullSupervisionBaseline.iteration m st).labeled_set = st.labeled_set)
    ∧ (∀ (m : ℚ × ℚ × ℚ) (st : BaselineState) (b : ℕ),
        FullSupervisionBaseline.iteration m { st with batch_size := b }
          = { FullSupervisionBaseline.iteration m st with batch_size := b }) := by
  refine ⟨?_, ?_, ?_, ?_, ?_⟩
  · intro m st h
    simp [FullSupervisionBaseline.iteration, h]
  · intro m st
    by_cases h : st.new_class <;> simp [FullSupervisionBaseline.iteration, h]
  · intro m st k
    show FullSupervisionBaseline.runFor m k
      (FullSupervisionBaseline.iteration m st)
      = FullSupervisionBaseline.iteration m st
    apply fs_runFor_fixed
    by_cases h : st.new_class <;> simp [FullSupervisionBaseline.iteration, h]
  · intro m st h
    have hit : FullSupervisionBaseline.iteration m st
        = { st with
            scores := (setScore (setScore (setScore st.scores "precision"
              (List.replicate 20 m.1)) "recall" (List.replicate 20 m.2.1))
              "average_precision" (List.replicate 20 m.2.2)),
            new_class := false } := by
      simp [FullSupervisionBaseline.iteration, h]
    rw [hit]
    refine ⟨?_, ?_, ?_, rfl⟩
    · rw [getScore_setScore_ne _ _ _ _ (by decide),
        getScore_setScore_ne _ _ _ _ (by decide),
        getScore_setScore_self]
    · rw [getScore_setScore_ne _ _ _ _ (by decide),
        getScore_setScore_self]
    · rw [getScore_setScore_self]
  · intro m st b
    by_cases h : st.new_class <;> simp [FullSupervisionBaseline.iteration, h]

/-- Closed instance of C10's fourth conjunct: the first iteration on a fresh
full-supervision state records each metric twenty times over. -/
theorem full_supervision_one_shot_witness :
    getScore (FullSupervisionBaseline.iteration (1, 2, 3)
        fullSupervisionInit).scores "precision" = List.replicate 20 1 ∧
    getScore (FullSupervisionBaseline.iteration (1, 2, 3)
        fullSupervisionInit).scores "recall" = List.replicate 20 2 ∧
    getScore (FullSupervisionBaseline.iteration (1, 2, 3)
        fullSupervisionInit).scores "average_precision" = List.replicate 20 3 ∧
    (FullSupervisionBaseline.iteration (1, 2, 3)
        fullSupervisionInit).labeled_set = fullSupervisionInit.labeled_set :=
  full_supervision_one_shot.2.2.2.1 (1, 2, 3) fullSupervisionInit rfl

end Seals
